import Mathlib

/-!
Verification of the arc-raiders-quest-tracker graph logic

This file gives a shallow embedding of the quest-tracker's core logic and
proves the specification claims about it.

Embedded code:

* the runtime graph-traversal engine of `app/composables/useQuests.ts`
  (`completeQuestPrerequisites`, `uncompleteDependants`,
  `anyDependantCompleted`, the `localStorage` hydration in `onMounted`), and
* the build-time tier generator `generateTiers.js`
  (`generateId`, the title→id / id→quest preprocessing, and the
  topological tier loop in `main`).

Modelling conventions:

* A JavaScript `Set` of quest-id strings is modelled as a `Finset String`.
* A JavaScript `Map` built by successive `set` calls is modelled as a list
  with unique keys produced by `mapFromList` (later `set` on an existing key
  overwrites the stored value in place; a fresh key is appended), which is
  exactly `Map`'s insertion-order/overwrite semantics.
* The `while (queue.length > 0)` worklist loops are modelled by the
  step-indexed loop `runClose`: one unit of fuel is one loop iteration, and
  `none` means the loop has not finished within the given fuel.  The total
  functions used by the app are obtained by running the loop with enough
  fuel; `runClose_terminates` proves enough fuel always exists.
* The JS code uses `queue.pop()` (top of the stack is the *end* of the
  array) and pushes dependency ids one by one; here the top of the stack is
  the *head* of the list, so the Lean queue is the reversed JS array.  The
  traversal order differs but the discovered *set* — the only thing the
  program uses — does not, and the proofs are about that set.
-/

/-- A quest of the generated catalog (`app/composables/questData.ts`):
`{id, title, url, dependencies}` where `dependencies` are quest ids. -/
structure Quest where
  id : String
  title : String
  url : String
  dependencies : List String
deriving DecidableEq

/-- One `set` step of a JavaScript `Map` keyed by `Quest.id`: overwrite the
value stored at an existing key in place, otherwise append the new entry. -/
def mapInsert (acc : List Quest) (q : Quest) : List Quest :=
  if acc.any (fun p => p.id == q.id) then
    acc.map (fun p => if p.id == q.id then q else p)
  else
    acc ++ [q]

/-- Models `new Map(entries)` keyed by `Quest.id`: insert the entries in order,
later entries overwriting earlier ones with the same id (last write wins).
Models both the runtime `questMap` (built from `questTiers.flat()`) and the
generator's `allQuests` map. -/
def mapFromList (l : List Quest) : List Quest :=
  l.foldl mapInsert []

/-- Models `questMap.get(id)?.dependencies ?? []`: the dependency ids of the quest
stored under `id`, or `[]` when no quest has that id (the source guards the
push loop with `if (quest && quest.dependencies)`). -/
def depsOf (qm : List Quest) (id : String) : List String :=
  match qm.find? (fun q => q.id == id) with
  | some q => q.dependencies
  | none => []

/-- Models `Array.from(questMap.values()).filter(q => q.dependencies.includes(id))`
followed by taking each dependant's id: the ids of the quests whose
dependency list directly contains `id`. -/
def dependantsOf (qm : List Quest) (id : String) : List String :=
  (qm.filter (fun q => q.dependencies.contains id)).map Quest.id

/-- Reachability along the successor function `next`: `Reaches next a b`
holds when `b` can be discovered from `a` by repeatedly following `next`
(zero or more steps).  With `next := depsOf qm` this is "b is a transitive
prerequisite of a (or a itself)"; with `next := dependantsOf qm` it is
"b is a transitive dependant of a (or a itself)". -/
inductive Reaches (next : String → List String) : String → String → Prop
  | refl (a : String) : Reaches next a a
  | step {a b c : String} : Reaches next a b → c ∈ next b → Reaches next a c

/-- The worklist loop shared by `completeQuestPrerequisites` (lines 500-517)
and `uncompleteDependants` (lines 536-553) of `useQuests.ts`, step-indexed:

```
while (queue.length > 0) {
  const currentId = queue.pop()
  if (currentId === undefined || discovered.has(currentId)) continue
  discovered.add(currentId)
  for (const n of next(currentId)) queue.push(n)
}
```

One unit of fuel is one loop iteration; `some seen` is the discovered set
when the loop has exited, `none` means the iteration budget was exhausted
while the queue was still non-empty. -/
def runClose (next : String → List String) :
    Nat → List String → Finset String → Option (Finset String)
  | _, [], seen => some seen
  | 0, _ :: _, _ => none
  | fuel + 1, c :: rest, seen =>
    if c ∈ seen then runClose next fuel rest seen
    else runClose next fuel (next c ++ rest) (insert c seen)

/-- Spending more fuel cannot change the result of a finished loop. -/
theorem runClose_mono (next : String → List String) :
    ∀ (fuel fuel' : Nat) (queue : List String) (seen s : Finset String),
      fuel ≤ fuel' → runClose next fuel queue seen = some s →
      runClose next fuel' queue seen = some s := by
  intro fuel
  induction fuel with
  | zero =>
    intro fuel' queue seen s _ h
    cases queue with
    | nil => simpa [runClose] using h
    | cons c rest => simp [runClose] at h
  | succ fuel ih =>
    intro fuel' queue seen s hle h
    cases queue with
    | nil =>
      simpa [runClose] using h
    | cons c rest =>
      obtain ⟨fuel'', rfl⟩ : ∃ k, fuel' = k + 1 := by
        refine ⟨fuel' - 1, ?_⟩
        omega
      have hle' : fuel ≤ fuel'' := by omega
      by_cases hc : c ∈ seen
      · simp only [runClose, if_pos hc] at h ⊢
        exact ih fuel'' rest seen s hle' h
      · simp only [runClose, if_neg hc] at h ⊢
        exact ih fuel'' (next c ++ rest) (insert c seen) s hle' h

/-- Termination of the worklist loop: when every id produced by `next` lies
in the finite universe `U` and the queue starts inside `U`, some iteration
budget finishes the loop.  The measure is lexicographic: the number of
`U`-ids not yet discovered, then the queue length. -/
theorem runClose_terminates (next : String → List String) (U : List String)
    (hU : ∀ id, ∀ d ∈ next id, d ∈ U) :
    ∀ (k : Nat) (seen : Finset String), (U.toFinset \ seen).card = k →
      ∀ (queue : List String), (∀ x ∈ queue, x ∈ U) →
      ∃ fuel s, runClose next fuel queue seen = some s := by
  intro k
  induction k using Nat.strong_induction_on with
  | _ k ih =>
    intro seen hcard queue
    induction queue with
    | nil => exact fun _ => ⟨0, seen, rfl⟩
    | cons c rest ihq =>
      intro hq
      by_cases hc : c ∈ seen
      · obtain ⟨fuel, s, hf⟩ := ihq (fun x hx => hq x (List.mem_cons_of_mem _ hx))
        exact ⟨fuel + 1, s, by simpa [runClose, hc] using hf⟩
      · have hcU : c ∈ U := hq c (List.mem_cons_self c rest)
        have hlt : (U.toFinset \ insert c seen).card < k := by
          rw [← hcard]
          apply Finset.card_lt_card
          constructor
          · exact Finset.sdiff_subset_sdiff (le_refl _) (Finset.subset_insert c seen)
          · intro hsub
            have hcmem : c ∈ U.toFinset \ seen := by
              simp [List.mem_toFinset.mpr hcU, hc]
            have := hsub hcmem
            simp at this
        have hqueue : ∀ x ∈ next c ++ rest, x ∈ U := by
          intro x hx
          rcases List.mem_append.mp hx with h1 | h1
          · exact hU c x h1
          · exact hq x (List.mem_cons_of_mem _ h1)
        obtain ⟨fuel, s, hf⟩ := ih _ hlt (insert c seen) rfl (next c ++ rest) hqueue
        exact ⟨fuel + 1, s, by simpa [runClose, hc] using hf⟩

/-- The discovered set only grows: the initial `seen` survives into the
result. -/
theorem runClose_seen_subset (next : String → List String) :
    ∀ (fuel : Nat) (queue : List String) (seen s : Finset String),
      runClose next fuel queue seen = some s → seen ⊆ s := by
  intro fuel
  induction fuel with
  | zero =>
    intro queue seen s h
    cases queue with
    | nil => simp [runClose] at h; exact h ▸ le_refl _
    | cons c rest => simp [runClose] at h
  | succ fuel ih =>
    intro queue seen s h
    cases queue with
    | nil => simp [runClose] at h; exact h ▸ le_refl _
    | cons c rest =>
      by_cases hc : c ∈ seen
      · simp only [runClose, if_pos hc] at h
        exact ih rest seen s h
      · simp only [runClose, if_neg hc] at h
        exact (Finset.subset_insert c seen).trans (ih _ _ _ h)

/-- Every id on the queue ends up discovered. -/
theorem runClose_queue_subset (next : String → List String) :
    ∀ (fuel : Nat) (queue : List String) (seen s : Finset String),
      runClose next fuel queue seen = some s → ∀ x ∈ queue, x ∈ s := by
  intro fuel
  induction fuel with
  | zero =>
    intro queue seen s h
    cases queue with
    | nil => simp
    | cons c rest => simp [runClose] at h
  | succ fuel ih =>
    intro queue seen s h x hx
    cases queue with
    | nil => simp at hx
    | cons c rest =>
      by_cases hc : c ∈ seen
      · simp only [runClose, if_pos hc] at h
        rcases List.mem_cons.mp hx with rfl | hx'
        · exact runClose_seen_subset next fuel rest seen s h hc
        · exact ih rest seen s h x hx'
      · simp only [runClose, if_neg hc] at h
        rcases List.mem_cons.mp hx with rfl | hx'
        · exact runClose_seen_subset next fuel _ _ s h (Finset.mem_insert_self x seen)
        · exact ih _ _ s h x (List.mem_append.mpr (Or.inr hx'))

/-- Soundness of the traversal: starting from a queue and a discovered set
whose members are all reachable from `root`, everything in the final
discovered set is reachable from `root`. -/
theorem runClose_sound (next : String → List String) (root : String) :
    ∀ (fuel : Nat) (queue : List String) (seen s : Finset String),
      (∀ x ∈ seen, Reaches next root x) → (∀ x ∈ queue, Reaches next root x) →
      runClose next fuel queue seen = some s → ∀ x ∈ s, Reaches next root x := by
  intro fuel
  induction fuel with
  | zero =>
    intro queue seen s hseen _ h
    cases queue with
    | nil => simp [runClose] at h; exact h ▸ hseen
    | cons c rest => simp [runClose] at h
  | succ fuel ih =>
    intro queue seen s hseen hqueue h
    cases queue with
    | nil => simp [runClose] at h; exact h ▸ hseen
    | cons c rest =>
      have hcR : Reaches next root c := hqueue c (List.mem_cons_self c rest)
      by_cases hc : c ∈ seen
      · simp only [runClose, if_pos hc] at h
        exact ih rest seen s hseen (fun x hx => hqueue x (List.mem_cons_of_mem _ hx)) h
      · simp only [runClose, if_neg hc] at h
        refine ih _ _ s ?_ ?_ h
        · intro x hx
          rcases Finset.mem_insert.mp hx with rfl | hx'
          · exact hcR
          · exact hseen x hx'
        · intro x hx
          rcases List.mem_append.mp hx with h1 | h1
          · exact Reaches.step hcR h1
          · exact hqueue x (List.mem_cons_of_mem _ h1)

/-- Closure invariant: if every already-discovered id has all its successors
either discovered or queued, then the final discovered set is closed under
`next`. -/
theorem runClose_closed (next : String → List String) :
    ∀ (fuel : Nat) (queue : List String) (seen s : Finset String),
      (∀ b ∈ seen, ∀ d ∈ next b, d ∈ seen ∨ d ∈ queue) →
      runClose next fuel queue seen = some s →
      ∀ b ∈ s, ∀ d ∈ next b, d ∈ s := by
  intro fuel
  induction fuel with
  | zero =>
    intro queue seen s hinv h
    cases queue with
    | nil =>
      simp [runClose] at h
      subst h
      intro b hb d hd
      rcases hinv b hb d hd with h1 | h1
      · exact h1
      · simp at h1
    | cons c rest => simp [runClose] at h
  | succ fuel ih =>
    intro queue seen s hinv h
    cases queue with
    | nil =>
      simp [runClose] at h
      subst h
      intro b hb d hd
      rcases hinv b hb d hd with h1 | h1
      · exact h1
      · simp at h1
    | cons c rest =>
      by_cases hc : c ∈ seen
      · simp only [runClose, if_pos hc] at h
        refine ih rest seen s ?_ h
        intro b hb d hd
        rcases hinv b hb d hd with h1 | h1
        · exact Or.inl h1
        · rcases List.mem_cons.mp h1 with rfl | h2
          · exact Or.inl hc
          · exact Or.inr h2
      · simp only [runClose, if_neg hc] at h
        refine ih _ _ s ?_ h
        intro b hb d hd
        rcases Finset.mem_insert.mp hb with rfl | hb'
        · exact Or.inr (List.mem_append.mpr (Or.inl hd))
        · rcases hinv b hb' d hd with h1 | h1
          · exact Or.inl (Finset.mem_insert_of_mem h1)
          · rcases List.mem_cons.mp h1 with rfl | h2
            · exact Or.inl (Finset.mem_insert_self d seen)
            · exact Or.inr (List.mem_append.mpr (Or.inr h2))

/-- The worklist loop started on `[root]` with nothing discovered computes
exactly the ids reachable from `root`. -/
theorem runClose_mem (next : String → List String) (root : String)
    (fuel : Nat) (s : Finset String)
    (h : runClose next fuel [root] ∅ = some s) :
    ∀ x, x ∈ s ↔ Reaches next root x := by
  intro x
  constructor
  · refine fun hx =>
      runClose_sound next root fuel [root] ∅ s (by simp) ?_ h x hx
    intro y hy
    have hy' : y = root := by simpa using hy
    subst hy'
    exact Reaches.refl y
  · intro hx
    have hroot : root ∈ s :=
      runClose_queue_subset next fuel [root] ∅ s h root (List.mem_cons_self root [])
    have hclosed : ∀ b ∈ s, ∀ d ∈ next b, d ∈ s :=
      runClose_closed next fuel [root] ∅ s (by simp) h
    induction hx with
    | refl => exact hroot
    | step hab hbc ih => exact hclosed _ ih _ hbc

/-- The ids that `completeQuestPrerequisites(questId)` can ever push on its
worklist: the start id and every id occurring in some dependency list. -/
def depsBound (qm : List Quest) (questId : String) : List String :=
  questId :: qm.flatMap Quest.dependencies

/-- Every id `depsOf` produces lies in `depsBound`. -/
theorem depsOf_mem_bound (qm : List Quest) (questId : String) :
    ∀ id, ∀ d ∈ depsOf qm id, d ∈ depsBound qm questId := by
  intro id d hd
  unfold depsOf at hd
  cases hfind : qm.find? (fun q => q.id == id) with
  | none => rw [hfind] at hd; simp at hd
  | some q =>
    rw [hfind] at hd
    have hq : q ∈ qm := List.mem_of_find?_eq_some hfind
    exact List.mem_cons_of_mem _ (List.mem_flatMap.mpr ⟨q, hq, hd⟩)

/-- The ids that `uncompleteDependants(questId)` can ever push on its
worklist: the start id and every quest id of the map. -/
def idsBound (qm : List Quest) (questId : String) : List String :=
  questId :: qm.map Quest.id

/-- Every id `dependantsOf` produces lies in `idsBound`. -/
theorem dependantsOf_mem_bound (qm : List Quest) (questId : String) :
    ∀ id, ∀ d ∈ dependantsOf qm id, d ∈ idsBound qm questId := by
  intro id d hd
  unfold dependantsOf at hd
  obtain ⟨q, hq, rfl⟩ := List.mem_map.mp hd
  exact List.mem_cons_of_mem _ (List.mem_map_of_mem _ (List.mem_of_mem_filter hq))

/-- The worklist loop of `useQuests.ts` as a total function: identical to
`runClose` but with the fuel replaced by a termination proof built from the
universe `U` that bounds every pushed id.  `closeOver_eq_of_runClose` below
shows it computes exactly what the (step-indexed) loop computes. -/
def closeOver (next : String → List String) (U : List String)
    (hU : ∀ id, ∀ d ∈ next id, d ∈ U) :
    (queue : List String) → (seen : Finset String) →
    (∀ x ∈ queue, x ∈ U) → Finset String
  | [], seen, _ => seen
  | c :: rest, seen, hq =>
    if hc : c ∈ seen then
      closeOver next U hU rest seen (fun x hx => hq x (List.mem_cons_of_mem _ hx))
    else
      closeOver next U hU (next c ++ rest) (insert c seen)
        (fun x hx => (List.mem_append.mp hx).elim (fun h1 => hU c x h1)
          (fun h1 => hq x (List.mem_cons_of_mem _ h1)))
termination_by queue seen _ => ((U.toFinset \ seen).card, queue.length)
decreasing_by
  · apply Prod.Lex.right
    simp
  · apply Prod.Lex.left
    apply Finset.card_lt_card
    constructor
    · exact Finset.sdiff_subset_sdiff (le_refl _) (Finset.subset_insert c seen)
    · intro hsub
      have hcU : c ∈ U := hq c (List.mem_cons_self c rest)
      have hcmem : c ∈ U.toFinset \ seen := by
        simp [List.mem_toFinset.mpr hcU, hc]
      have := hsub hcmem
      simp at this

/-- The total loop agrees with any finished run of the step-indexed loop. -/
theorem closeOver_eq_of_runClose (next : String → List String) (U : List String)
    (hU : ∀ id, ∀ d ∈ next id, d ∈ U) :
    ∀ (fuel : Nat) (queue : List String) (seen s : Finset String)
      (hq : ∀ x ∈ queue, x ∈ U),
      runClose next fuel queue seen = some s →
      closeOver next U hU queue seen hq = s := by
  intro fuel
  induction fuel with
  | zero =>
    intro queue seen s hq h
    cases queue with
    | nil => simp [runClose] at h; unfold closeOver; exact h
    | cons c rest => simp [runClose] at h
  | succ fuel ih =>
    intro queue seen s hq h
    cases queue with
    | nil => simp [runClose] at h; unfold closeOver; exact h
    | cons c rest =>
      by_cases hc : c ∈ seen
      · simp only [runClose, if_pos hc] at h
        unfold closeOver
        rw [dif_pos hc]
        exact ih rest seen s _ h
      · simp only [runClose, if_neg hc] at h
        unfold closeOver
        rw [dif_neg hc]
        exact ih (next c ++ rest) (insert c seen) s _ h

/-- Membership characterization of the total loop started on `[root]`. -/
theorem closeOver_mem (next : String → List String) (U : List String)
    (hU : ∀ id, ∀ d ∈ next id, d ∈ U) (root : String)
    (hroot : ∀ x ∈ [root], x ∈ U) :
    ∀ x, x ∈ closeOver next U hU [root] ∅ hroot ↔ Reaches next root x := by
  obtain ⟨fuel, s, hf⟩ :=
    runClose_terminates next U hU _ ∅ rfl [root] hroot
  have heq := closeOver_eq_of_runClose next U hU fuel [root] ∅ s hroot hf
  rw [heq]
  exact runClose_mem next root fuel s hf

/-- The initial worklist `[questId]` lies inside `depsBound`. -/
theorem start_mem_depsBound (qm : List Quest) (questId : String) :
    ∀ x ∈ [questId], x ∈ depsBound qm questId := by
  intro x hx
  have hx' : x = questId := by simpa using hx
  subst hx'
  exact List.mem_cons_self x _

/-- The initial worklist `[questId]` lies inside `idsBound`. -/
theorem start_mem_idsBound (qm : List Quest) (questId : String) :
    ∀ x ∈ [questId], x ∈ idsBound qm questId := by
  intro x hx
  have hx' : x = questId := by simpa using hx
  subst hx'
  exact List.mem_cons_self x _

/-- The function `completeQuestPrerequisites` of `useQuests.ts` (lines 496-524):
DFS up the dependency graph from `questId` over the quest map
(`questMap = new Map(questTiers.flat().map(q => [q.id, q]))`), collecting
the discovered ids, then

```
questsToComplete.delete(questId)
completedQuests.value = questsToComplete.union(completedQuests.value)
```

The function takes the flattened catalog and the current completed set. -/
def completeQuestPrerequisites (catalog : List Quest) (questId : String)
    (completed : Finset String) : Finset String :=
  let qm := mapFromList catalog
  let questsToComplete :=
    closeOver (depsOf qm) (depsBound qm questId) (depsOf_mem_bound qm questId)
      [questId] ∅ (start_mem_depsBound qm questId)
  (questsToComplete.erase questId) ∪ completed

/-- The function `uncompleteDependants` of `useQuests.ts` (lines 532-558):
DFS down the dependant graph from `questId`, collecting the discovered ids
(`questId` included), then

```
const newSet = new Set(completedQuests.value)
completedQuests.value = newSet.difference(questsToUncomplete)
```
-/
def uncompleteDependants (catalog : List Quest) (questId : String)
    (completed : Finset String) : Finset String :=
  let qm := mapFromList catalog
  let questsToUncomplete :=
    closeOver (dependantsOf qm) (idsBound qm questId) (dependantsOf_mem_bound qm questId)
      [questId] ∅ (start_mem_idsBound qm questId)
  completed \ questsToUncomplete

/-- The predicate `anyDependantCompleted` of `useQuests.ts` (lines 584-594): true iff some
quest of the quest map lists `quest.id` directly in its dependencies and is
itself in the completed set. -/
def anyDependantCompleted (catalog : List Quest) (completed : Finset String)
    (quest : Quest) : Bool :=
  let qm := mapFromList catalog
  (qm.filter (fun q => q.dependencies.contains quest.id)).any
    (fun q => decide (q.id ∈ completed))

/-- A quest of `mapFromList l` keeps an id occurring in `l`. -/
theorem mem_map_id_of_mem_mapInsert (acc : List Quest) (p q : Quest)
    (h : q ∈ mapInsert acc p) : q.id ∈ acc.map Quest.id ∨ q.id = p.id := by
  unfold mapInsert at h
  by_cases hany : acc.any (fun r => r.id == p.id)
  · rw [if_pos hany] at h
    obtain ⟨r, hr, hrq⟩ := List.mem_map.mp h
    by_cases hid : r.id == p.id
    · rw [if_pos hid] at hrq
      exact Or.inr (hrq ▸ rfl)
    · rw [if_neg hid] at hrq
      exact Or.inl (hrq ▸ List.mem_map_of_mem Quest.id hr)
  · rw [if_neg hany] at h
    rcases List.mem_append.mp h with h1 | h1
    · exact Or.inl (List.mem_map_of_mem Quest.id h1)
    · have : q = p := by simpa using h1
      exact Or.inr (this ▸ rfl)

/-- The quest map only contains ids of the original list. -/
theorem mem_map_id_of_mem_mapFromList (l : List Quest) (q : Quest)
    (h : q ∈ mapFromList l) : q.id ∈ l.map Quest.id := by
  suffices haux : ∀ (l acc : List Quest) (q : Quest), q ∈ l.foldl mapInsert acc →
      q.id ∈ acc.map Quest.id ∨ q.id ∈ l.map Quest.id by
    rcases haux l [] q h with h1 | h1
    · simp at h1
    · exact h1
  intro l
  induction l with
  | nil => intro acc q h; exact Or.inl (List.mem_map_of_mem Quest.id h)
  | cons p rest ih =>
    intro acc q h
    rcases ih (mapInsert acc p) q h with h1 | h1
    · obtain ⟨r, hr, hrid⟩ := List.mem_map.mp h1
      rcases mem_map_id_of_mem_mapInsert acc p r hr with h2 | h2
      · exact Or.inl (hrid ▸ h2)
      · exact Or.inr (by simp [← hrid, h2])
    · exact Or.inr (List.mem_cons_of_mem _ h1)

/-- When the ids of `l` are distinct — the catalog invariant guaranteed by
the generator — building the quest map does not change the list at all. -/
theorem mapFromList_eq_self (l : List Quest) (h : (l.map Quest.id).Nodup) :
    mapFromList l = l := by
  suffices haux : ∀ (l acc : List Quest), (acc.map Quest.id ++ l.map Quest.id).Nodup →
      l.foldl mapInsert acc = acc ++ l by
    have := haux l [] (by simpa using h)
    simpa [mapFromList] using this
  intro l
  induction l with
  | nil => intro acc _; rw [List.foldl_nil, List.append_nil]
  | cons p rest ih =>
    intro acc hnd
    have hpacc : p.id ∉ acc.map Quest.id := by
      rcases List.nodup_append.mp hnd with ⟨_, _, hdisj⟩
      exact fun hmem => hdisj hmem (by simp)
    have hins : mapInsert acc p = acc ++ [p] := by
      unfold mapInsert
      rw [if_neg ?_]
      simp only [List.any_eq_true, beq_iff_eq, not_exists, not_and]
      intro r hr hrid
      exact absurd (hrid ▸ List.mem_map_of_mem Quest.id hr) hpacc
    have hnd' : ((acc ++ [p]).map Quest.id ++ rest.map Quest.id).Nodup := by
      simpa [List.append_assoc] using hnd
    calc (p :: rest).foldl mapInsert acc
        = rest.foldl mapInsert (mapInsert acc p) := rfl
      _ = rest.foldl mapInsert (acc ++ [p]) := by rw [hins]
      _ = (acc ++ [p]) ++ rest := ih (acc ++ [p]) hnd'
      _ = acc ++ (p :: rest) := by simp

/-- Membership in the result of `completeQuestPrerequisites`, for an
arbitrary catalog: an id is in the new completed set iff it was already
completed, or it is a strict transitive prerequisite of `questId` in the
quest map. -/
theorem completeQuestPrerequisites_mem (catalog : List Quest) (questId : String)
    (completed : Finset String) (x : String) :
    x ∈ completeQuestPrerequisites catalog questId completed ↔
      x ∈ completed ∨
        (Reaches (depsOf (mapFromList catalog)) questId x ∧ x ≠ questId) := by
  unfold completeQuestPrerequisites
  simp only [Finset.mem_union, Finset.mem_erase]
  rw [closeOver_mem (depsOf (mapFromList catalog))
    (depsBound (mapFromList catalog) questId)
    (depsOf_mem_bound (mapFromList catalog) questId) questId
    (start_mem_depsBound (mapFromList catalog) questId) x]
  tauto

/-- Membership in the result of `uncompleteDependants`, for an arbitrary
catalog: an id survives iff it was completed and is not `questId` or one of
its transitive dependants in the quest map. -/
theorem uncompleteDependants_mem (catalog : List Quest) (questId : String)
    (completed : Finset String) (x : String) :
    x ∈ uncompleteDependants catalog questId completed ↔
      x ∈ completed ∧
        ¬ Reaches (dependantsOf (mapFromList catalog)) questId x := by
  unfold uncompleteDependants
  simp only [Finset.mem_sdiff]
  rw [closeOver_mem (dependantsOf (mapFromList catalog))
    (idsBound (mapFromList catalog) questId)
    (dependantsOf_mem_bound (mapFromList catalog) questId) questId
    (start_mem_idsBound (mapFromList catalog) questId) x]

/-- If `root` has no successors, only `root` is reachable from it. -/
theorem reaches_eq_of_no_next (next : String → List String) (root : String)
    (hroot : next root = []) : ∀ x, Reaches next root x → x = root := by
  intro x hx
  induction hx with
  | refl => rfl
  | step hab hbc ih =>
    rw [ih, hroot] at hbc
    exact absurd hbc (List.not_mem_nil _)

/-- The diamond catalog from the spec (§8): A with no dependencies, B and C
depending on A, D depending on B and C. -/
def sampleCatalog : List Quest :=
  [⟨"a", "A", "", []⟩, ⟨"b", "B", "", ["a"]⟩,
   ⟨"c", "C", "", ["a"]⟩, ⟨"d", "D", "", ["b", "c"]⟩]

/-- C1: for every catalog (with the catalog invariant of unique ids), every
quest id present in the catalog and every starting completed set,
`completeAncestors(id)` replaces the completed set with the union of the old
set and the strict transitive prerequisites of `id` (transitive closure of
its dependencies, excluding `id` itself); it never adds `id` itself, and
every already-completed id remains completed. -/
theorem completeAncestors_adds_exactly_strict_prereqs
    (catalog : List Quest) (questId : String) (completed : Finset String)
    (hids : (catalog.map Quest.id).Nodup)
    (hpresent : questId ∈ catalog.map Quest.id) :
    (∀ x, x ∈ completeQuestPrerequisites catalog questId completed ↔
        (x ∈ completed ∨ (Reaches (depsOf catalog) questId x ∧ x ≠ questId))) ∧
    (questId ∈ completeQuestPrerequisites catalog questId completed ↔
        questId ∈ completed) ∧
    (∀ x ∈ completed, x ∈ completeQuestPrerequisites catalog questId completed) := by
  have hmap : mapFromList catalog = catalog := mapFromList_eq_self catalog hids
  have hmem : ∀ x, x ∈ completeQuestPrerequisites catalog questId completed ↔
      (x ∈ completed ∨ (Reaches (depsOf catalog) questId x ∧ x ≠ questId)) := by
    intro x
    have h := completeQuestPrerequisites_mem catalog questId completed x
    rwa [hmap] at h
  refine ⟨hmem, ?_, ?_⟩
  · rw [hmem questId]
    simp
  · intro x hx
    exact (hmem x).mpr (Or.inl hx)

/-- Witness for C1 on the diamond catalog at id `d`. -/
theorem completeAncestors_adds_exactly_strict_prereqs_witness :
    ((sampleCatalog.map Quest.id).Nodup ∧ "d" ∈ sampleCatalog.map Quest.id) ∧
    (∀ x, x ∈ completeQuestPrerequisites sampleCatalog "d" ∅ ↔
        (x ∈ (∅ : Finset String) ∨
          (Reaches (depsOf sampleCatalog) "d" x ∧ x ≠ "d"))) :=
  ⟨⟨by decide, by decide⟩,
    (completeAncestors_adds_exactly_strict_prereqs sampleCatalog "d" ∅
      (by decide) (by decide)).1⟩

/-- C2: for every catalog (with unique ids), every quest id and every
starting completed set, `uncompleteDescendants(id)` removes exactly `id`
itself and all of its transitive dependants from the completed set;
membership of every other id is unchanged. -/
theorem uncompleteDescendants_removes_exactly_dependants
    (catalog : List Quest) (questId : String) (completed : Finset String)
    (hids : (catalog.map Quest.id).Nodup) :
    ∀ x, x ∈ uncompleteDependants catalog questId completed ↔
      (x ∈ completed ∧ ¬ Reaches (dependantsOf catalog) questId x) := by
  have hmap := mapFromList_eq_self catalog hids
  intro x
  have h := uncompleteDependants_mem catalog questId completed x
  rwa [hmap] at h

/-- Witness for C2 on the diamond catalog at id `a`. -/
theorem uncompleteDescendants_removes_exactly_dependants_witness :
    (sampleCatalog.map Quest.id).Nodup ∧
    (∀ x, x ∈ uncompleteDependants sampleCatalog "a" {"a", "b", "c", "d"} ↔
        (x ∈ ({"a", "b", "c", "d"} : Finset String) ∧
          ¬ Reaches (dependantsOf sampleCatalog) "a" x)) :=
  ⟨by decide,
    uncompleteDescendants_removes_exactly_dependants sampleCatalog "a"
      {"a", "b", "c", "d"} (by decide)⟩

/-- C7: `completeAncestors(id)` is idempotent — applying it twice yields the
same completed set as applying it once, for any catalog, id and starting
set. -/
theorem completeAncestors_idempotent (catalog : List Quest) (questId : String)
    (completed : Finset String) :
    completeQuestPrerequisites catalog questId
        (completeQuestPrerequisites catalog questId completed) =
      completeQuestPrerequisites catalog questId completed := by
  ext x
  rw [completeQuestPrerequisites_mem, completeQuestPrerequisites_mem]
  tauto

/-- C10: for an id that occurs nowhere in the catalog,
`completeAncestors(id)` leaves the completed set exactly unchanged: the
traversal discovers only the origin id, which is removed before the union. -/
theorem completeAncestors_unknown_id_noop (catalog : List Quest)
    (questId : String) (completed : Finset String)
    (habsent : ∀ q ∈ catalog, q.id ≠ questId) :
    completeQuestPrerequisites catalog questId completed = completed := by
  have hdeps : depsOf (mapFromList catalog) questId = [] := by
    unfold depsOf
    cases hfind : (mapFromList catalog).find? (fun q => q.id == questId) with
    | none => rfl
    | some q =>
      have hq := List.mem_of_find?_eq_some hfind
      have hid := List.find?_some hfind
      obtain ⟨p, hp, hpid⟩ :=
        List.mem_map.mp (mem_map_id_of_mem_mapFromList catalog q hq)
      have : q.id ≠ questId := fun hcontra => habsent p hp (hpid.trans hcontra)
      simp [this] at hid
  ext x
  rw [completeQuestPrerequisites_mem]
  constructor
  · rintro (hx | ⟨hr, hne⟩)
    · exact hx
    · exact absurd (reaches_eq_of_no_next _ questId hdeps x hr) hne
  · exact fun hx => Or.inl hx

/-- Witness for C10: an id foreign to the diamond catalog is a no-op. -/
theorem completeAncestors_unknown_id_noop_witness :
    (∀ q ∈ sampleCatalog, q.id ≠ "zz") ∧
    completeQuestPrerequisites sampleCatalog "zz" {"a"} = {"a"} :=
  ⟨by decide, completeAncestors_unknown_id_noop sampleCatalog "zz" {"a"} (by decide)⟩

/-- C6: `hasCompletedDependant(q)` is true iff some quest of the catalog
lists `q.id` directly in its dependencies and is itself completed — only
immediate dependants are inspected, never transitive ones. -/
theorem hasCompletedDependant_direct_only
    (catalog : List Quest) (completed : Finset String) (quest : Quest)
    (hids : (catalog.map Quest.id).Nodup) :
    anyDependantCompleted catalog completed quest = true ↔
      ∃ q ∈ catalog, quest.id ∈ q.dependencies ∧ q.id ∈ completed := by
  unfold anyDependantCompleted
  rw [mapFromList_eq_self catalog hids]
  simp only [List.any_eq_true, List.mem_filter, decide_eq_true_eq]
  constructor
  · rintro ⟨q, ⟨hq, hdep⟩, hcomp⟩
    exact ⟨q, hq, by simpa [List.elem_iff] using hdep, hcomp⟩
  · rintro ⟨q, hq, hdep, hcomp⟩
    exact ⟨q, ⟨hq, by simpa [List.elem_iff] using hdep⟩, hcomp⟩

/-- Witness for C6 on the diamond catalog: quest B has completed dependant D
when D is completed. -/
theorem hasCompletedDependant_direct_only_witness :
    (sampleCatalog.map Quest.id).Nodup ∧
    (anyDependantCompleted sampleCatalog {"d"} ⟨"b", "B", "", ["a"]⟩ = true ↔
      ∃ q ∈ sampleCatalog, "b" ∈ q.dependencies ∧ q.id ∈ ({"d"} : Finset String)) :=
  ⟨by decide,
    hasCompletedDependant_direct_only sampleCatalog {"d"} ⟨"b", "B", "", ["a"]⟩
      (by decide)⟩

/-- A parsed JSON value — the result of a successful `JSON.parse`. -/
inductive JsonValue
  | null
  | bool (b : Bool)
  | num (n : Int)
  | str (s : String)
  | arr (elems : List JsonValue)
  | obj (fields : List (String × JsonValue))

/-- What reading `localStorage.getItem('arc-raiders-progress')` followed by
`JSON.parse` can produce: the key may be absent (`getItem` returns `null`,
or a falsy string that skips the `if (stored)` guard), the stored string may
fail to parse (`JSON.parse` throws — caught by the surrounding
`try`/`catch`), or parsing may succeed with some JSON value. -/
inductive StoredValue
  | absent
  | malformed
  | json (v : JsonValue)

/-- Models `new Set(parsed)` for a parsed JSON array, observed through `has` on
quest-id strings: a non-string member of the JS Set never compares equal to
a string id, so only the string members are observable. -/
def jsonArrayStrings (elems : List JsonValue) : Finset String :=
  (elems.filterMap (fun v =>
    match v with
    | JsonValue.str s => some s
    | _ => none)).toFinset

/-- The `onMounted` hydration of `useQuests.ts` (lines 437-456):

```
try {
  const stored = localStorage.getItem('arc-raiders-progress')
  if (stored) {
    const parsed = JSON.parse(stored)
    if (Array.isArray(parsed)) completedQuests.value = new Set(parsed)
  }
} catch (e) { console.error(...) }
```

The function is total: the `try`/`catch` means no error reaches the caller;
the `malformed` case is the caught-exception path, which leaves the current
set untouched. -/
def hydrate (stored : StoredValue) (current : Finset String) : Finset String :=
  match stored with
  | StoredValue.absent => current
  | StoredValue.malformed => current
  | StoredValue.json v =>
    match v with
    | JsonValue.arr elems => jsonArrayStrings elems
    | _ => current

/-- C8: hydrating from a persisted value that is absent, not valid JSON,
JSON `null`, or any JSON value that is not an array results in an empty
completed set (the startup set is empty and is left untouched), and more
generally never changes the current set; only a persisted JSON array
replaces the set.  No error is raised: `hydrate` is total by construction,
the caught-exception path being the `malformed` case. -/
theorem hydration_tolerates_bad_data (stored : StoredValue)
    (hnotarr : ∀ elems, stored ≠ StoredValue.json (JsonValue.arr elems)) :
    hydrate stored ∅ = ∅ ∧ ∀ current, hydrate stored current = current := by
  have hall : ∀ current, hydrate stored current = current := by
    intro current
    cases stored with
    | absent => rfl
    | malformed => rfl
    | json v =>
      cases v with
      | arr elems => exact absurd rfl (hnotarr elems)
      | null => rfl
      | bool b => rfl
      | num n => rfl
      | str s => rfl
      | obj fields => rfl
  exact ⟨hall ∅, hall⟩

/-- Witness for C8 at the persisted value `null`. -/
theorem hydration_tolerates_bad_data_witness :
    (∀ elems, StoredValue.json JsonValue.null ≠
        StoredValue.json (JsonValue.arr elems)) ∧
    (hydrate (StoredValue.json JsonValue.null) ∅ = ∅ ∧
      ∀ current, hydrate (StoredValue.json JsonValue.null) current = current) :=
  ⟨fun _ h => JsonValue.noConfusion (StoredValue.json.inj h),
    hydration_tolerates_bad_data (StoredValue.json JsonValue.null)
      (fun _ h => JsonValue.noConfusion (StoredValue.json.inj h))⟩

/-- The worklist loop instrumented with the list of ids actually processed
(added to the discovered set), in order.  Identical to `runClose`
otherwise. -/
def runCloseTrace (next : String → List String) :
    Nat → List String → Finset String → List String →
    Option (Finset String × List String)
  | _, [], seen, trace => some (seen, trace)
  | 0, _ :: _, _, _ => none
  | fuel + 1, c :: rest, seen, trace =>
    if c ∈ seen then runCloseTrace next fuel rest seen trace
    else runCloseTrace next fuel (next c ++ rest) (insert c seen) (trace ++ [c])

/-- Any finished run of the plain loop also finishes with a trace. -/
theorem runCloseTrace_exists (next : String → List String) :
    ∀ (fuel : Nat) (queue : List String) (seen s : Finset String),
      runClose next fuel queue seen = some s →
      ∀ trace, ∃ tr, runCloseTrace next fuel queue seen trace = some (s, tr) := by
  intro fuel
  induction fuel with
  | zero =>
    intro queue seen s h trace
    cases queue with
    | nil => simp [runClose] at h; exact ⟨trace, by simp [runCloseTrace, h]⟩
    | cons c rest => simp [runClose] at h
  | succ fuel ih =>
    intro queue seen s h trace
    cases queue with
    | nil => simp [runClose] at h; exact ⟨trace, by simp [runCloseTrace, h]⟩
    | cons c rest =>
      by_cases hc : c ∈ seen
      · simp only [runClose, if_pos hc] at h
        obtain ⟨tr, htr⟩ := ih rest seen s h trace
        exact ⟨tr, by simpa [runCloseTrace, hc] using htr⟩
      · simp only [runClose, if_neg hc] at h
        obtain ⟨tr, htr⟩ := ih (next c ++ rest) (insert c seen) s h (trace ++ [c])
        exact ⟨tr, by simpa [runCloseTrace, hc] using htr⟩

/-- The visited-set guard means no id is ever processed twice: the trace of
processed ids has no duplicates (provided the ids already traced are all in
the discovered set, as at the start). -/
theorem runCloseTrace_nodup (next : String → List String) :
    ∀ (fuel : Nat) (queue : List String) (seen : Finset String)
      (trace : List String) (s : Finset String) (tr : List String),
      runCloseTrace next fuel queue seen trace = some (s, tr) →
      trace.Nodup → (∀ t ∈ trace, t ∈ seen) → tr.Nodup := by
  intro fuel
  induction fuel with
  | zero =>
    intro queue seen trace s tr h hnd _
    cases queue with
    | nil =>
      simp [runCloseTrace] at h
      exact h.2 ▸ hnd
    | cons c rest => simp [runCloseTrace] at h
  | succ fuel ih =>
    intro queue seen trace s tr h hnd hsub
    cases queue with
    | nil =>
      simp [runCloseTrace] at h
      exact h.2 ▸ hnd
    | cons c rest =>
      by_cases hc : c ∈ seen
      · simp only [runCloseTrace, if_pos hc] at h
        exact ih rest seen trace s tr h hnd hsub
      · simp only [runCloseTrace, if_neg hc] at h
        refine ih (next c ++ rest) (insert c seen) (trace ++ [c]) s tr h ?_ ?_
        · rw [List.nodup_append]
          exact ⟨hnd, List.nodup_singleton c,
            fun t ht => by
              have : t ∈ seen := hsub t ht
              simp only [List.mem_singleton]
              exact fun hteq => hc (hteq ▸ this)⟩
        · intro t ht
          rcases List.mem_append.mp ht with h1 | h1
          · exact Finset.mem_insert_of_mem (hsub t h1)
          · have : t = c := by simpa using h1
            exact this ▸ Finset.mem_insert_self c seen

/-- C9: both traversals terminate on every catalog — in particular on every
DAG, diamond-shaped graphs included — because each worklist loop tracks a
discovered set: the loop finishes within some finite iteration budget, the
trace of processed ids has no duplicates (every node is processed at most
once), and the finishing run computes exactly the sets used by
`completeQuestPrerequisites` and `uncompleteDependants`. -/
theorem traversals_terminate_and_visit_once (catalog : List Quest)
    (questId : String) :
    (∃ fuel s trace,
        runCloseTrace (depsOf (mapFromList catalog)) fuel [questId] ∅ [] =
          some (s, trace) ∧
        trace.Nodup ∧
        ∀ completed, completeQuestPrerequisites catalog questId completed =
          (s.erase questId) ∪ completed) ∧
    (∃ fuel s trace,
        runCloseTrace (dependantsOf (mapFromList catalog)) fuel [questId] ∅ [] =
          some (s, trace) ∧
        trace.Nodup ∧
        ∀ completed, uncompleteDependants catalog questId completed =
          completed \ s) := by
  constructor
  · obtain ⟨fuel, s, hf⟩ := runClose_terminates (depsOf (mapFromList catalog))
      (depsBound (mapFromList catalog) questId)
      (depsOf_mem_bound (mapFromList catalog) questId) _ ∅ rfl [questId]
      (start_mem_depsBound (mapFromList catalog) questId)
    obtain ⟨tr, htr⟩ := runCloseTrace_exists _ fuel [questId] ∅ s hf []
    refine ⟨fuel, s, tr, htr,
      runCloseTrace_nodup _ fuel _ _ _ _ _ htr (by simp) (by simp), ?_⟩
    intro completed
    show (closeOver (depsOf (mapFromList catalog))
        (depsBound (mapFromList catalog) questId)
        (depsOf_mem_bound (mapFromList catalog) questId) [questId] ∅
        (start_mem_depsBound (mapFromList catalog) questId)).erase questId
        ∪ completed = (s.erase questId) ∪ completed
    rw [closeOver_eq_of_runClose _ _ _ fuel _ _ s _ hf]
  · obtain ⟨fuel, s, hf⟩ := runClose_terminates (dependantsOf (mapFromList catalog))
      (idsBound (mapFromList catalog) questId)
      (dependantsOf_mem_bound (mapFromList catalog) questId) _ ∅ rfl [questId]
      (start_mem_idsBound (mapFromList catalog) questId)
    obtain ⟨tr, htr⟩ := runCloseTrace_exists _ fuel [questId] ∅ s hf []
    refine ⟨fuel, s, tr, htr,
      runCloseTrace_nodup _ fuel _ _ _ _ _ htr (by simp) (by simp), ?_⟩
    intro completed
    show completed \ (closeOver (dependantsOf (mapFromList catalog))
        (idsBound (mapFromList catalog) questId)
        (dependantsOf_mem_bound (mapFromList catalog) questId) [questId] ∅
        (start_mem_idsBound (mapFromList catalog) questId)) = completed \ s
    rw [closeOver_eq_of_runClose _ _ _ fuel _ _ s _ hf]

/-- ASCII lowercasing, modelling `String.prototype.toLowerCase`.  (Only the
characters `[a-z0-9 ]` survive the subsequent strip, so non-ASCII case
differences cannot reach the slug.) -/
def asciiLower (c : Char) : Char :=
  if 'A' ≤ c ∧ c ≤ 'Z' then Char.ofNat (c.toNat + 32) else c

/-- The apostrophe character, removed by `.replace(/'/g, '')`. -/
def apostrophe : Char := Char.ofNat 39

/-- The characters kept by `.replace(/[^a-z0-9 ]/g, '')`. -/
def isSlugChar (c : Char) : Bool :=
  decide ((Char.ofNat 97 ≤ c ∧ c ≤ Char.ofNat 122) ∨
    (Char.ofNat 48 ≤ c ∧ c ≤ Char.ofNat 57) ∨ c = ' ')

/-- Models `String.prototype.trim` at a point where only spaces can remain as
whitespace: drop leading and trailing spaces. -/
def trimSpaces (cs : List Char) : List Char :=
  ((cs.dropWhile (fun c => c == ' ')).reverse.dropWhile (fun c => c == ' ')).reverse

/-- Models `.replace(/\s+/g, '_')`: each maximal run of spaces becomes a single
underscore.  The boolean flag records whether the previous character was a
space (i.e. we are mid-run). -/
def collapseRuns : Bool → List Char → List Char
  | _, [] => []
  | prevSpace, c :: rest =>
    if c = ' ' then
      if prevSpace then collapseRuns true rest
      else Char.ofNat 95 :: collapseRuns true rest
    else c :: collapseRuns false rest

/-- The function `generateId` of `generateTiers.js` (lines 308-315):

```
title.toLowerCase().replace(/'/g, '').replace(/[^a-z0-9 ]/g, '')
  .trim().replace(/\s+/g, '_')
```
-/
def generateId (title : String) : String :=
  let lowered := title.data.map asciiLower
  let noApostrophes := lowered.filter (fun c => c != apostrophe)
  let slugChars := noApostrophes.filter isSlugChar
  String.mk (collapseRuns false (trimSpaces slugChars))

/-- One entry of the scraped `questData.json`: `{url, dependencies, unlocks}`
with title-valued dependency and unlock lists. -/
structure RawQuest where
  url : String
  dependencies : List String
  unlocks : List String
deriving DecidableEq

/-- Models `questData.dependencies.map(t => titleToIdMap.get(t)).filter(Boolean)`
(lines 356-358): each dependency title resolves to its slug when the title
is one of the quest titles (`titleToIdMap` maps every quest title to
`generateId(title)`), otherwise to `undefined`; `.filter(Boolean)` drops the
`undefined`s — and also any empty-string slug, since `""` is falsy in
JavaScript. -/
def resolveDeps (titles : List String) (deps : List String) : List String :=
  (deps.filterMap (fun t => if t ∈ titles then some (generateId t) else none)).filter
    (fun s => s != "")

/-- The quest object built for one `(title, raw)` entry (lines 360-365). -/
def mkQuest (titles : List String) (p : String × RawQuest) : Quest :=
  { id := generateId p.1, title := p.1, url := p.2.url,
    dependencies := resolveDeps titles p.2.dependencies }

/-- The pre-processing passes of `main` (lines 333-366): assign every title
its slug, rewrite dependency titles to ids dropping unresolvable ones, and
store the quests in the id-keyed `allQuests` map, later entries with a
colliding slug overwriting earlier ones.  The input list models the parsed
`questData.json` object (iterated via `Object.keys`), so its titles are
distinct and looking a title up in `questMap` yields its own entry. -/
def preprocess (input : List (String × RawQuest)) : List Quest :=
  mapFromList (input.map (mkQuest (input.map Prod.fst)))

/-- The duplicate-title check of the first pass (lines 341-347): walking the
titles in order, `console.warn` fires for a title exactly when
`titleToIdMap.has(title)` already holds — that is, when the *same title*
occurred earlier in the list.  Returns the list of warned titles.  (The
first accumulator component is the list of keys inserted so far; appending
blindly keeps the same membership as the real key set.) -/
def duplicateWarnings (titles : List String) : List String :=
  (titles.foldl
    (fun acc title =>
      (acc.1 ++ [title], if title ∈ acc.1 then acc.2 ++ [title] else acc.2))
    ([], [])).2

/-- The tier loop of `main` (lines 379-415): repeatedly split the remaining
quests into those whose dependencies are all already processed (the next
tier) and the rest; if a pass places nobody while quests remain, the script
reports the circular dependency, printing the stuck quests and their
dependencies, and aborts without writing the output file (`.error` carries
those stuck quests); otherwise the tier is appended and its ids join the
processed set.  (When `remaining ≠ []` and the tier is empty the rest is
automatically all of `remaining`, so the guard `questsForNextRound.length >
0` of the source is implied.) -/
def sortLoop (remaining : List Quest) (processed : Finset String) :
    Except (List Quest) (List (List Quest)) :=
  if remaining = [] then .ok []
  else
    let part := remaining.partition
      (fun q => q.dependencies.all (fun d => decide (d ∈ processed)))
    if part.1 = [] then .error part.2
    else
      match sortLoop part.2 (processed ∪ (part.1.map Quest.id).toFinset) with
      | .ok tiers => .ok (part.1 :: tiers)
      | .error stuck => .error stuck
termination_by remaining.length
decreasing_by
  rename_i hne hp
  have h1 := @List.length_eq_length_filter_add Quest remaining
    (fun q => q.dependencies.all (fun d => decide (d ∈ processed)))
  have h2 : part.1 = remaining.filter
      (fun q => q.dependencies.all (fun d => decide (d ∈ processed))) := by
    simp [part, List.partition_eq_filter_filter]
  have h3 : part.2 = remaining.filter
      (fun q => !(q.dependencies.all (fun d => decide (d ∈ processed)))) := by
    simp only [part, List.partition_eq_filter_filter]
    rfl
  have h4 : 0 < part.1.length := List.length_pos.mpr hp
  rw [h3]
  rw [h2] at h4
  omega

/-- The whole Tier Sorter on a raw input mapping: preprocessing followed by
the tier loop started with nothing processed. -/
def tierSort (input : List (String × RawQuest)) :
    Except (List Quest) (List (List Quest)) :=
  sortLoop (preprocess input) ∅

/-- The predicate deciding membership of the next tier: all dependencies
already processed. -/
def depsMet (processed : Finset String) (q : Quest) : Bool :=
  q.dependencies.all (fun d => decide (d ∈ processed))

/-- The loop `sortLoop` rewritten with plain filters and `depsMet`, for reuse in proofs. -/
theorem sortLoop_unfold (remaining : List Quest) (processed : Finset String) :
    sortLoop remaining processed =
      if remaining = [] then .ok []
      else
        if remaining.filter (depsMet processed) = [] then
          .error (remaining.filter (fun q => !depsMet processed q))
        else
          match sortLoop (remaining.filter (fun q => !depsMet processed q))
              (processed ∪ ((remaining.filter (depsMet processed)).map Quest.id).toFinset) with
          | .ok tiers => .ok (remaining.filter (depsMet processed) :: tiers)
          | .error stuck => .error stuck := by
  rw [sortLoop.eq_def]
  simp only [List.partition_eq_filter_filter]
  rfl

/-- Every remaining quest lands in the tier or in the leftover. -/
theorem mem_filter_or_filter_not (l : List Quest) (p : Quest → Bool) (q : Quest)
    (h : q ∈ l) : q ∈ l.filter p ∨ q ∈ l.filter (fun x => !p x) := by
  by_cases hp : p q
  · exact Or.inl (List.mem_filter.mpr ⟨h, hp⟩)
  · exact Or.inr (List.mem_filter.mpr ⟨h, by simp [hp]⟩)

/-- Membership of the `Map`-insert step, on whole quests. -/
theorem mem_of_mem_mapInsert (acc : List Quest) (p q : Quest)
    (h : q ∈ mapInsert acc p) : q ∈ acc ∨ q = p := by
  unfold mapInsert at h
  by_cases hany : acc.any (fun r => r.id == p.id)
  · rw [if_pos hany] at h
    obtain ⟨r, hr, hrq⟩ := List.mem_map.mp h
    by_cases hid : r.id == p.id
    · rw [if_pos hid] at hrq
      exact Or.inr hrq.symm
    · rw [if_neg hid] at hrq
      exact Or.inl (hrq ▸ hr)
  · rw [if_neg hany] at h
    rcases List.mem_append.mp h with h1 | h1
    · exact Or.inl h1
    · exact Or.inr (by simpa using h1)

/-- The quest map stores only quests of the original list. -/
theorem mem_of_mem_mapFromList (l : List Quest) (q : Quest)
    (h : q ∈ mapFromList l) : q ∈ l := by
  suffices haux : ∀ (l acc : List Quest) (q : Quest), q ∈ l.foldl mapInsert acc →
      q ∈ acc ∨ q ∈ l by
    rcases haux l [] q h with h1 | h1
    · simp at h1
    · exact h1
  intro l
  induction l with
  | nil => intro acc q h; exact Or.inl h
  | cons p rest ih =>
    intro acc q h
    rcases ih (mapInsert acc p) q h with h1 | h1
    · rcases mem_of_mem_mapInsert acc p q h1 with h2 | h2
      · exact Or.inl h2
      · exact Or.inr (h2 ▸ List.mem_cons_self p rest)
    · exact Or.inr (List.mem_cons_of_mem _ h1)

/-- The id set of a `Map`-insert step: the old keys plus the new key. -/
theorem mapInsert_map_id_mem (acc : List Quest) (p : Quest) (x : String) :
    x ∈ (mapInsert acc p).map Quest.id ↔ x ∈ acc.map Quest.id ∨ x = p.id := by
  constructor
  · intro h
    obtain ⟨r, hr, hrid⟩ := List.mem_map.mp h
    rcases mem_map_id_of_mem_mapInsert acc p r hr with h1 | h1
    · exact Or.inl (hrid ▸ h1)
    · exact Or.inr (hrid ▸ h1)
  · intro h
    unfold mapInsert
    by_cases hany : acc.any (fun r => r.id == p.id)
    · rw [if_pos hany]
      rcases h with h1 | h1
      · obtain ⟨r, hr, hrid⟩ := List.mem_map.mp h1
        refine List.mem_map.mpr ⟨if r.id == p.id then p else r, List.mem_map_of_mem _ hr, ?_⟩
        by_cases hid : r.id == p.id
        · rw [if_pos hid]
          have : r.id = p.id := by simpa using hid
          rw [← this, hrid]
        · rw [if_neg hid]
          exact hrid
      · obtain ⟨r0, hr0, hr0id⟩ := List.any_eq_true.mp hany
        refine List.mem_map.mpr ⟨if r0.id == p.id then p else r0, List.mem_map_of_mem _ hr0, ?_⟩
        rw [if_pos hr0id, h1]
    · rw [if_neg hany]
      rcases h with h1 | h1
      · obtain ⟨r, hr, hrid⟩ := List.mem_map.mp h1
        exact List.mem_map.mpr ⟨r, List.mem_append.mpr (Or.inl hr), hrid⟩
      · exact List.mem_map.mpr ⟨p, List.mem_append.mpr (Or.inr (by simp)), h1.symm⟩

/-- The quest map has exactly the ids of the original list. -/
theorem mapFromList_map_id_mem (l : List Quest) (x : String) :
    x ∈ (mapFromList l).map Quest.id ↔ x ∈ l.map Quest.id := by
  suffices haux : ∀ (l acc : List Quest) (x : String),
      x ∈ (l.foldl mapInsert acc).map Quest.id ↔
        x ∈ acc.map Quest.id ∨ x ∈ l.map Quest.id by
    rw [mapFromList, haux]
    simp
  intro l
  induction l with
  | nil => intro acc x; simp
  | cons p rest ih =>
    intro acc x
    rw [List.foldl_cons, ih, mapInsert_map_id_mem]
    simp only [List.map_cons, List.mem_cons]
    tauto

/-- The quest map has no duplicate ids, whatever the input list. -/
theorem mapFromList_ids_nodup (l : List Quest) :
    ((mapFromList l).map Quest.id).Nodup := by
  suffices haux : ∀ (l acc : List Quest), (acc.map Quest.id).Nodup →
      ((l.foldl mapInsert acc).map Quest.id).Nodup by
    exact haux l [] (by simp)
  intro l
  induction l with
  | nil => intro acc h; exact h
  | cons p rest ih =>
    intro acc h
    refine ih (mapInsert acc p) ?_
    unfold mapInsert
    by_cases hany : acc.any (fun r => r.id == p.id)
    · rw [if_pos hany]
      have hsame : (acc.map (fun r => if r.id == p.id then p else r)).map Quest.id =
          acc.map Quest.id := by
        rw [List.map_map]
        refine List.map_congr_left ?_
        intro r _
        by_cases hid : r.id == p.id
        · simp only [Function.comp_apply, if_pos hid]
          exact (by simpa using hid : r.id = p.id).symm
        · simp only [Function.comp_apply, if_neg hid]
      rw [hsame]
      exact h
    · rw [if_neg hany]
      rw [List.map_append]
      rw [List.nodup_append]
      refine ⟨h, by simp, ?_⟩
      intro x hx
      simp only [List.map_cons, List.map_nil, List.mem_singleton]
      intro hxp
      subst hxp
      rcases List.mem_map.mp hx with ⟨r, hr, hrid⟩
      rw [List.any_eq_true] at hany
      exact hany ⟨r, hr, by simp [hrid]⟩

/-- Acyclicity of the resolved dependency graph of a quest list: some rank
function strictly decreases along every dependency edge.  For a finite graph
this is the standard equivalent of containing no directed cycle. -/
def AcyclicQuests (qs : List Quest) : Prop :=
  ∃ r : String → Nat, ∀ q ∈ qs, ∀ d ∈ q.dependencies, r d < r q.id

/-- An element of a tier list found positionally is in the flattening. -/
theorem mem_flatten_of_getD (l : List (List Quest)) (i : Nat) (x : Quest)
    (hi : i < l.length) (hx : x ∈ l.getD i []) : x ∈ l.flatten := by
  rw [List.getD_eq_getElem?_getD, List.getElem?_eq_getElem hi] at hx
  exact List.mem_flatten.mpr ⟨l[i], List.getElem_mem hi, hx⟩

/-- On an acyclic remnant whose unresolved dependencies are all already
processed or still present, the tier loop always succeeds: every pass finds
at least one quest (one of minimal rank) whose dependencies are all
processed. -/
theorem sortLoop_ok_of_acyclic (r : String → Nat) :
    ∀ (n : Nat) (remaining : List Quest) (processed : Finset String),
      remaining.length = n →
      (∀ q ∈ remaining, ∀ d ∈ q.dependencies, r d < r q.id) →
      (∀ q ∈ remaining, ∀ d ∈ q.dependencies,
        d ∈ processed ∨ ∃ p ∈ remaining, p.id = d) →
      ∃ tiers, sortLoop remaining processed = .ok tiers := by
  intro n
  induction n using Nat.strong_induction_on with
  | _ n ih =>
    intro remaining processed hlen hrank hclosed
    by_cases hne : remaining = []
    · exact ⟨[], by rw [sortLoop_unfold, if_pos hne]⟩
    · have hne' : remaining.toFinset.Nonempty := by
        cases remaining with
        | nil => exact absurd rfl hne
        | cons q rest => exact ⟨q, by simp⟩
      obtain ⟨q0, hq0mem, hq0min⟩ :=
        Finset.exists_min_image remaining.toFinset (fun q => r q.id) hne'
      rw [List.mem_toFinset] at hq0mem
      have hq0met : depsMet processed q0 = true := by
        unfold depsMet
        rw [List.all_eq_true]
        intro d hd
        rcases hclosed q0 hq0mem d hd with h1 | ⟨p, hp, hpid⟩
        · simpa using h1
        · exfalso
          have h2 := hrank q0 hq0mem d hd
          have h3 := hq0min p (List.mem_toFinset.mpr hp)
          rw [hpid] at h3
          omega
      have htier : remaining.filter (depsMet processed) ≠ [] := by
        intro hemp
        have hmem : q0 ∈ remaining.filter (depsMet processed) :=
          List.mem_filter.mpr ⟨hq0mem, hq0met⟩
        rw [hemp] at hmem
        simp at hmem
      have hlt : (remaining.filter (fun q => !depsMet processed q)).length < n := by
        have h1 := @List.length_eq_length_filter_add Quest remaining (depsMet processed)
        have h2 : 0 < (remaining.filter (depsMet processed)).length :=
          List.length_pos.mpr htier
        omega
      have hclosed' : ∀ q ∈ remaining.filter (fun q => !depsMet processed q),
          ∀ d ∈ q.dependencies,
          d ∈ processed ∪ ((remaining.filter (depsMet processed)).map Quest.id).toFinset ∨
            ∃ p ∈ remaining.filter (fun q => !depsMet processed q), p.id = d := by
        intro q hq d hd
        rcases hclosed q (List.mem_of_mem_filter hq) d hd with h1 | ⟨p, hp, hpid⟩
        · exact Or.inl (Finset.mem_union_left _ h1)
        · rcases mem_filter_or_filter_not remaining (depsMet processed) p hp with h2 | h2
          · refine Or.inl (Finset.mem_union_right _ ?_)
            rw [List.mem_toFinset]
            exact hpid ▸ List.mem_map_of_mem Quest.id h2
          · exact Or.inr ⟨p, h2, hpid⟩
      obtain ⟨tiers, htiers⟩ := ih _ hlt
        (remaining.filter (fun q => !depsMet processed q))
        (processed ∪ ((remaining.filter (depsMet processed)).map Quest.id).toFinset)
        rfl
        (fun q hq d hd => hrank q (List.mem_of_mem_filter hq) d hd)
        hclosed'
      exact ⟨remaining.filter (depsMet processed) :: tiers,
        by rw [sortLoop_unfold, if_neg hne, if_neg htier, htiers]⟩

/-- Structure of a successful tier loop run: the tiers partition the
remnant, every dependency of a tier-`i` quest is already processed or
provided by an earlier tier, and for `i ≥ 1` some dependency is provided
exactly by tier `i-1` (so the quest could not have been placed earlier). -/
theorem sortLoop_ok_spec :
    ∀ (n : Nat) (remaining : List Quest) (processed : Finset String)
      (tiers : List (List Quest)),
      remaining.length = n →
      sortLoop remaining processed = .ok tiers →
      tiers.flatten.Perm remaining ∧
      (∀ i q, i < tiers.length → q ∈ tiers.getD i [] → ∀ d ∈ q.dependencies,
        d ∈ processed ∨ ∃ j < i, ∃ p ∈ tiers.getD j [], p.id = d) ∧
      (∀ i q, i < tiers.length → 0 < i → q ∈ tiers.getD i [] →
        ∃ d ∈ q.dependencies, ∃ p ∈ tiers.getD (i - 1) [], p.id = d) := by
  intro n
  induction n using Nat.strong_induction_on with
  | _ n ih =>
    intro remaining processed tiers hlen hok
    rw [sortLoop_unfold] at hok
    by_cases hne : remaining = []
    · rw [if_pos hne] at hok
      injection hok with hok
      subst hok
      subst hne
      refine ⟨by simp, ?_, ?_⟩ <;> intro i q hi <;> simp at hi
    · rw [if_neg hne] at hok
      by_cases htier : remaining.filter (depsMet processed) = []
      · rw [if_pos htier] at hok
        simp at hok
      · rw [if_neg htier] at hok
        cases hrec : sortLoop (remaining.filter (fun q => !depsMet processed q))
            (processed ∪ ((remaining.filter (depsMet processed)).map Quest.id).toFinset) with
        | error stuck => rw [hrec] at hok; simp at hok
        | ok tiers2 =>
          rw [hrec] at hok
          injection hok with hok
          subst hok
          have hlt : (remaining.filter (fun q => !depsMet processed q)).length < n := by
            have h1 := @List.length_eq_length_filter_add Quest remaining (depsMet processed)
            have h2 : 0 < (remaining.filter (depsMet processed)).length :=
              List.length_pos.mpr htier
            omega
          obtain ⟨hperm2, hspec2, hmin2⟩ := ih _ hlt
            (remaining.filter (fun q => !depsMet processed q)) _ tiers2 rfl hrec
          refine ⟨?_, ?_, ?_⟩
          · rw [List.flatten_cons]
            exact (List.Perm.append_left _ hperm2).trans
              (List.filter_append_perm (depsMet processed) remaining)
          · intro i q hi hq d hd
            cases i with
            | zero =>
              rw [List.getD_cons_zero] at hq
              have hmet := (List.mem_filter.mp hq).2
              unfold depsMet at hmet
              rw [List.all_eq_true] at hmet
              exact Or.inl (by simpa using hmet d hd)
            | succ i =>
              rw [List.getD_cons_succ] at hq
              have hi2 : i < tiers2.length := by simpa using Nat.lt_of_succ_lt_succ hi
              rcases hspec2 i q hi2 hq d hd with h1 | ⟨j, hj, p, hp, hpid⟩
              · rcases Finset.mem_union.mp h1 with h2 | h2
                · exact Or.inl h2
                · rw [List.mem_toFinset] at h2
                  obtain ⟨p, hp, hpid⟩ := List.mem_map.mp h2
                  exact Or.inr ⟨0, Nat.succ_pos i, p, by rw [List.getD_cons_zero]; exact hp, hpid⟩
              · exact Or.inr ⟨j + 1, Nat.succ_lt_succ hj, p,
                  by rw [List.getD_cons_succ]; exact hp, hpid⟩
          · intro i q hi hpos hq
            cases i with
            | zero => exact absurd hpos (by simp)
            | succ i =>
              rw [List.getD_cons_succ] at hq
              have hi2 : i < tiers2.length := by simpa using Nat.lt_of_succ_lt_succ hi
              cases i with
              | zero =>
                -- q sits in the first recursive tier: it was left over at
                -- this pass, so one of its dependencies was unprocessed,
                -- and the recursive placement shows that dependency is an
                -- id of the pass tier.
                have hqrest : q ∈ remaining.filter (fun p => !depsMet processed p) := by
                  have := mem_flatten_of_getD tiers2 0 q hi2 hq
                  exact hperm2.subset this
                have hnotmet := (List.mem_filter.mp hqrest).2
                simp only [Bool.not_eq_true'] at hnotmet
                unfold depsMet at hnotmet
                rw [List.all_eq_false] at hnotmet
                obtain ⟨d, hd, hdnp⟩ := hnotmet
                have hdnp' : d ∉ processed := by simpa using hdnp
                rcases hspec2 0 q hi2 hq d hd with h1 | ⟨j, hj, _⟩
                · rcases Finset.mem_union.mp h1 with h2 | h2
                  · exact absurd h2 hdnp'
                  · rw [List.mem_toFinset] at h2
                    obtain ⟨p, hp, hpid⟩ := List.mem_map.mp h2
                    exact ⟨d, hd, p, by rw [List.getD_cons_zero]; exact hp, hpid⟩
                · exact absurd hj (by omega)
              | succ i =>
                obtain ⟨d, hd, p, hp, hpid⟩ :=
                  hmin2 (i + 1) q hi2 (Nat.succ_pos i) hq
                refine ⟨d, hd, p, ?_, hpid⟩
                simp only [Nat.add_sub_cancel] at hp ⊢
                rw [List.getD_cons_succ]
                exact hp

/-- Every dependency id of a preprocessed quest is the id of some
preprocessed quest: unresolvable titles were dropped during resolution, and
a resolvable title slugs to an id that the id-keyed map necessarily
contains. -/
theorem preprocess_deps_closed (input : List (String × RawQuest)) :
    ∀ q ∈ preprocess input, ∀ d ∈ q.dependencies,
      ∃ p ∈ preprocess input, p.id = d := by
  intro q hq d hd
  have hq' := mem_of_mem_mapFromList _ q hq
  obtain ⟨pr, hpr, hpreq⟩ := List.mem_map.mp hq'
  rw [← hpreq] at hd
  simp only [mkQuest] at hd
  unfold resolveDeps at hd
  obtain ⟨hd1, _⟩ := List.mem_filter.mp hd
  obtain ⟨t, ht, hteq⟩ := List.mem_filterMap.mp hd1
  by_cases htt : t ∈ input.map Prod.fst
  · rw [if_pos htt] at hteq
    have hgen : generateId t = d := Option.some.inj hteq
    have hmem : d ∈ (input.map (mkQuest (input.map Prod.fst))).map Quest.id := by
      obtain ⟨pr2, hpr2, hpr2t⟩ := List.mem_map.mp htt
      refine List.mem_map.mpr
        ⟨mkQuest (input.map Prod.fst) pr2, List.mem_map_of_mem _ hpr2, ?_⟩
      show generateId pr2.1 = d
      rw [hpr2t, hgen]
    have hmem2 : d ∈ (preprocess input).map Quest.id :=
      (mapFromList_map_id_mem _ d).mpr hmem
    exact List.mem_map.mp hmem2
  · rw [if_neg htt] at hteq
    exact absurd hteq (by simp)

/-- C3: for every input mapping whose resolved dependency graph is acyclic,
the Tier Sorter emits a catalog in which every quest appears in exactly one
tier (the flattened tiers are a permutation of the deduplicated quest set),
every dependency of a tier-`t` quest lies in a tier strictly below `t`, and
`t` is minimal: for `t ≥ 1` some dependency lies exactly in tier `t-1`, so
the quest could not have been placed earlier. -/
theorem tierSorter_tiers_correct (input : List (String × RawQuest))
    (hacyc : AcyclicQuests (preprocess input)) :
    ∃ tiers, tierSort input = .ok tiers ∧
      tiers.flatten.Perm (preprocess input) ∧
      (∀ i q, i < tiers.length → q ∈ tiers.getD i [] → ∀ d ∈ q.dependencies,
        ∃ j < i, ∃ p ∈ tiers.getD j [], p.id = d) ∧
      (∀ i q, i < tiers.length → 0 < i → q ∈ tiers.getD i [] →
        ∃ d ∈ q.dependencies, ∃ p ∈ tiers.getD (i - 1) [], p.id = d) := by
  obtain ⟨r, hr⟩ := hacyc
  obtain ⟨tiers, htiers⟩ := sortLoop_ok_of_acyclic r (preprocess input).length
    (preprocess input) ∅ rfl hr
    (fun q hq d hd => Or.inr (preprocess_deps_closed input q hq d hd))
  obtain ⟨hperm, hspec, hmin⟩ := sortLoop_ok_spec (preprocess input).length
    (preprocess input) ∅ tiers rfl htiers
  refine ⟨tiers, htiers, hperm, ?_, hmin⟩
  intro i q hi hq d hd
  rcases hspec i q hi hq d hd with h1 | h1
  · simp at h1
  · exact h1

/-- A two-quest acyclic input: B depends on A. -/
def sampleInput : List (String × RawQuest) :=
  [("A", ⟨"", [], []⟩), ("B", ⟨"", ["A"], []⟩)]

/-- Witness for C3 on the two-quest acyclic input. -/
theorem tierSorter_tiers_correct_witness :
    AcyclicQuests (preprocess sampleInput) ∧
    (∃ tiers, tierSort sampleInput = .ok tiers ∧
      tiers.flatten.Perm (preprocess sampleInput) ∧
      (∀ i q, i < tiers.length → q ∈ tiers.getD i [] → ∀ d ∈ q.dependencies,
        ∃ j < i, ∃ p ∈ tiers.getD j [], p.id = d) ∧
      (∀ i q, i < tiers.length → 0 < i → q ∈ tiers.getD i [] →
        ∃ d ∈ q.dependencies, ∃ p ∈ tiers.getD (i - 1) [], p.id = d)) :=
  ⟨⟨fun id => if id = "b" then 1 else 0, by decide⟩,
    tierSorter_tiers_correct sampleInput
      ⟨fun id => if id = "b" then 1 else 0, by decide⟩⟩

/-- The resolved dependency graph contains a cycle: a nonempty set of ids,
each the id of a quest of the list whose dependency list contains another id
of the set.  (For a finite graph this is the standard equivalent of a
directed cycle: the members of a cycle form such a set, and from such a set
a cycle is extracted by repeatedly following the witnesses.) -/
def HasCycleQuests (qs : List Quest) : Prop :=
  ∃ S : List String, S ≠ [] ∧
    ∀ id ∈ S, ∃ q ∈ qs, q.id = id ∧ ∃ d ∈ q.dependencies, d ∈ S

/-- When a cycle survives among the remaining quests, the tier loop can
never place its members, so it eventually reports a non-empty stuck set
containing all of them (and never returns a catalog). -/
theorem sortLoop_error_of_cycle :
    ∀ (n : Nat) (remaining : List Quest) (processed : Finset String)
      (S : List String),
      remaining.length = n →
      (remaining.map Quest.id).Nodup →
      S ≠ [] →
      (∀ id ∈ S, ∃ q ∈ remaining, q.id = id ∧ ∃ d ∈ q.dependencies, d ∈ S) →
      (∀ id ∈ S, id ∉ processed) →
      ∃ stuck, sortLoop remaining processed = .error stuck ∧ stuck ≠ [] ∧
        (∀ id ∈ S, ∃ q ∈ stuck, q.id = id) ∧ (∀ q ∈ stuck, q ∈ remaining) := by
  intro n
  induction n using Nat.strong_induction_on with
  | _ n ih =>
    intro remaining processed S hlen hnodup hSne hSin hSproc
    obtain ⟨id0, hid0⟩ : ∃ id0, id0 ∈ S := by
      cases S with
      | nil => exact absurd rfl hSne
      | cons a l => exact ⟨a, by simp⟩
    -- every quest whose id is in S is stuck in this pass
    have hSrest : ∀ id ∈ S, ∃ q ∈ remaining.filter (fun q => !depsMet processed q),
        q.id = id ∧ ∃ d ∈ q.dependencies, d ∈ S := by
      intro id hid
      obtain ⟨q, hq, hqid, d, hd, hdS⟩ := hSin id hid
      have hnotmet : depsMet processed q = false := by
        unfold depsMet
        rw [List.all_eq_false]
        exact ⟨d, hd, by simpa using hSproc d hdS⟩
      exact ⟨q, List.mem_filter.mpr ⟨hq, by simp [hnotmet]⟩, hqid, d, hd, hdS⟩
    by_cases hne : remaining = []
    · exfalso
      obtain ⟨q, hq, _⟩ := hSin id0 hid0
      rw [hne] at hq
      simp at hq
    · by_cases htier : remaining.filter (depsMet processed) = []
      · refine ⟨remaining.filter (fun q => !depsMet processed q),
          by rw [sortLoop_unfold, if_neg hne, if_pos htier], ?_, ?_, ?_⟩
        · intro hemp
          obtain ⟨q, hq, _⟩ := hSrest id0 hid0
          rw [hemp] at hq
          simp at hq
        · intro id hid
          obtain ⟨q, hq, hqid, _⟩ := hSrest id hid
          exact ⟨q, hq, hqid⟩
        · exact fun q hq => List.mem_of_mem_filter hq
      · have hlt : (remaining.filter (fun q => !depsMet processed q)).length < n := by
          have h1 := @List.length_eq_length_filter_add Quest remaining (depsMet processed)
          have h2 : 0 < (remaining.filter (depsMet processed)).length :=
            List.length_pos.mpr htier
          omega
        have hnodup' : ((remaining.filter (fun q => !depsMet processed q)).map Quest.id).Nodup :=
          ((List.filter_sublist remaining).map Quest.id).nodup hnodup
        have hSin' : ∀ id ∈ S, ∃ q ∈ remaining.filter (fun q => !depsMet processed q),
            q.id = id ∧ ∃ d ∈ q.dependencies, d ∈ S := hSrest
        have hSproc' : ∀ id ∈ S,
            id ∉ processed ∪ ((remaining.filter (depsMet processed)).map Quest.id).toFinset := by
          intro id hid hmem
          rcases Finset.mem_union.mp hmem with h1 | h1
          · exact hSproc id hid h1
          · rw [List.mem_toFinset] at h1
            obtain ⟨p, hp, hpid⟩ := List.mem_map.mp h1
            obtain ⟨q, hq, hqid, _⟩ := hSrest id hid
            have hpq : p = q := by
              refine List.inj_on_of_nodup_map hnodup
                (List.mem_of_mem_filter hp) (List.mem_of_mem_filter hq) ?_
              rw [hpid, hqid]
            have hmet : depsMet processed q = true := (List.mem_filter.mp (hpq ▸ hp)).2
            have hnot : (!depsMet processed q) = true := (List.mem_filter.mp hq).2
            rw [hmet] at hnot
            simp at hnot
        obtain ⟨stuck, herr, hstuckne, hcov, hsub⟩ := ih _ hlt
          (remaining.filter (fun q => !depsMet processed q))
          (processed ∪ ((remaining.filter (depsMet processed)).map Quest.id).toFinset)
          S rfl hnodup' hSne hSin' hSproc'
        refine ⟨stuck, ?_, hstuckne, hcov,
          fun q hq => List.mem_of_mem_filter (hsub q hq)⟩
        rw [sortLoop_unfold, if_neg hne, if_neg htier, herr]

/-- C4: for every input mapping whose resolved dependency graph contains a
cycle, the Tier Sorter reports a cycle-detected error whose payload is the
non-empty list of stuck quests (each carries its dependency list, which the
script prints), and emits no catalog — the run never reaches the code
writing the output file, which only runs on a successful sort. -/
theorem tierSorter_cycle_error (input : List (String × RawQuest))
    (hcyc : HasCycleQuests (preprocess input)) :
    ∃ stuck, tierSort input = .error stuck ∧ stuck ≠ [] ∧
      ∀ q ∈ stuck, q ∈ preprocess input := by
  obtain ⟨S, hSne, hSin⟩ := hcyc
  obtain ⟨stuck, herr, hstuckne, _, hsub⟩ :=
    sortLoop_error_of_cycle (preprocess input).length (preprocess input) ∅ S rfl
      (mapFromList_ids_nodup _) hSne hSin (fun id _ h => by simp at h)
  exact ⟨stuck, herr, hstuckne, hsub⟩

/-- A two-quest cyclic input: A and B depend on each other. -/
def sampleCycleInput : List (String × RawQuest) :=
  [("A", ⟨"", ["B"], []⟩), ("B", ⟨"", ["A"], []⟩)]

/-- Witness for C4 on the two-quest cyclic input. -/
theorem tierSorter_cycle_error_witness :
    HasCycleQuests (preprocess sampleCycleInput) ∧
    (∃ stuck, tierSort sampleCycleInput = .error stuck ∧ stuck ≠ [] ∧
      ∀ q ∈ stuck, q ∈ preprocess sampleCycleInput) :=
  ⟨⟨["a", "b"], by decide⟩,
    tierSorter_cycle_error sampleCycleInput ⟨["a", "b"], by decide⟩⟩

/-- Two distinct titles colliding on the slug `bees`. -/
def collidingInput : List (String × RawQuest) :=
  [("Bees!", ⟨"", [], []⟩), ("Bees?", ⟨"", [], []⟩)]

/-- C5 counterexample: two *distinct* titles mapping to the same slug id do
NOT get logged — `duplicateWarnings` is empty on this colliding input even
though the collision happens (only one quest survives, carrying the later
title).  The source's duplicate check tests `titleToIdMap.has(title)`, i.e.
whether the *title* occurred before, which distinct titles never trigger. -/
theorem duplicateId_warning_counterexample :
    "Bees!" ≠ "Bees?" ∧
    generateId "Bees!" = generateId "Bees?" ∧
    duplicateWarnings (collidingInput.map Prod.fst) = [] ∧
    (preprocess collidingInput).map Quest.title = ["Bees?"] :=
  ⟨by decide, by decide, by decide, by decide⟩

/-- Predicates agreeing pointwise find the same element. -/
theorem find?_pred_congr {α : Type} (l : List α) (p q : α → Bool)
    (h : ∀ a, p a = q a) : l.find? p = l.find? q := by
  have : p = q := funext h
  rw [this]

/-- Looking a key up after a `Map`-insert: the inserted entry for its own
key, the old map for every other key. -/
theorem mapInsert_find?_eq (acc : List Quest) (p : Quest) (id : String) :
    (mapInsert acc p).find? (fun q => q.id == id) =
      if p.id = id then some p else acc.find? (fun q => q.id == id) := by
  unfold mapInsert
  by_cases hany : acc.any (fun r => r.id == p.id)
  · rw [if_pos hany, List.find?_map]
    by_cases hpd : p.id = id
    · subst hpd
      rw [if_pos rfl]
      have hcong : ∀ r : Quest,
          ((fun q => q.id == p.id) ∘ (fun r => if r.id == p.id then p else r)) r =
            (r.id == p.id) := by
        intro r
        simp only [Function.comp_apply]
        by_cases hr : (r.id == p.id) = true
        · rw [if_pos hr, hr]
          simp
        · rw [if_neg hr]
      rw [find?_pred_congr _ _ _ hcong]
      obtain ⟨r0, hfind⟩ :=
        Option.isSome_iff_exists.mp (List.find?_isSome.mpr (List.any_eq_true.mp hany))
      rw [hfind]
      have hr0 := @List.find?_some Quest (fun r => r.id == p.id) r0 acc hfind
      simp only [Option.map_some']
      have hr0' : r0.id = p.id := by simpa using hr0
      rw [if_pos (by simpa using hr0')]
    · rw [if_neg hpd]
      have hcong : ∀ r : Quest,
          ((fun q => q.id == id) ∘ (fun r => if r.id == p.id then p else r)) r =
            (r.id == id) := by
        intro r
        simp only [Function.comp_apply]
        by_cases hr : (r.id == p.id) = true
        · rw [if_pos hr]
          have hr' : r.id = p.id := by simpa using hr
          have h1 : (p.id == id) = false := by simpa using hpd
          rw [h1, hr', h1]
        · rw [if_neg hr]
      rw [find?_pred_congr _ _ _ hcong]
      cases hfind : acc.find? (fun q => q.id == id) with
      | none => simp
      | some r1 =>
        have hr1 := @List.find?_some Quest (fun q => q.id == id) r1 acc hfind
        have hr1' : r1.id = id := by simpa using hr1
        have hne : (r1.id == p.id) = false := by
          simp only [beq_eq_false_iff_ne]
          rw [hr1']
          exact fun h => hpd h.symm
        simp only [Option.map_some']
        rw [if_neg (by simp [hne])]
  · rw [if_neg hany, List.find?_append]
    by_cases hpd : p.id = id
    · rw [if_pos hpd]
      have hnone : acc.find? (fun q => q.id == id) = none := by
        rw [List.find?_eq_none]
        intro r hr hrid
        rw [List.any_eq_true] at hany
        refine hany ⟨r, hr, ?_⟩
        have : r.id = id := by simpa using hrid
        simp [this, hpd]
      rw [hnone]
      have : List.find? (fun q => q.id == id) [p] = some p := by
        simp [List.find?_cons, hpd]
      rw [this]
      rfl
    · have : List.find? (fun q => q.id == id) [p] = none := by
        simp [List.find?_cons, hpd]
      rw [this, if_neg hpd]
      cases acc.find? (fun q => q.id == id) <;> rfl

/-- Folding `Map`-inserts over a list: the stored entry for a key is the
*last* entry of the list with that key, the accumulator answering only when
the list has no such entry. -/
theorem foldl_mapInsert_find? :
    ∀ (l acc : List Quest) (id : String),
      (l.foldl mapInsert acc).find? (fun q => q.id == id) =
        (match l.reverse.find? (fun q => q.id == id) with
          | some q => some q
          | none => acc.find? (fun q => q.id == id)) := by
  intro l
  induction l with
  | nil => intro acc id; rfl
  | cons p rest ih =>
    intro acc id
    rw [List.foldl_cons, ih, List.reverse_cons, List.find?_append]
    cases hfind : rest.reverse.find? (fun q => q.id == id) with
    | some q => rfl
    | none =>
      rw [mapInsert_find?_eq]
      by_cases hpd : p.id = id
      · have : List.find? (fun q => q.id == id) [p] = some p := by
          simp [List.find?_cons, hpd]
        rw [this, if_pos hpd]
        rfl
      · have : List.find? (fun q => q.id == id) [p] = none := by
          simp [List.find?_cons, hpd]
        rw [this, if_neg hpd]
        rfl

/-- Last-write-wins of the preprocessing stage: the catalog entry stored
under a slug is built from the *last* input entry whose title slugs to it. -/
theorem preprocess_find?_eq_last (input : List (String × RawQuest)) (id : String) :
    (preprocess input).find? (fun q => q.id == id) =
      (input.reverse.find? (fun pr => generateId pr.1 == id)).map
        (mkQuest (input.map Prod.fst)) := by
  unfold preprocess mapFromList
  rw [foldl_mapInsert_find?]
  rw [← List.map_reverse, List.find?_map]
  have hcong : ((fun q : Quest => q.id == id) ∘ mkQuest (input.map Prod.fst)) =
      (fun pr => generateId pr.1 == id) := funext (fun pr => rfl)
  rw [hcong]
  cases (input.reverse.find? (fun pr => generateId pr.1 == id)).map
      (mkQuest (input.map Prod.fst)) <;> rfl

/-- Distinct titles never trigger the duplicate warning. -/
theorem duplicateWarnings_nil_of_nodup (titles : List String)
    (h : titles.Nodup) : duplicateWarnings titles = [] := by
  suffices haux : ∀ (ts keys w : List String),
      (∀ t ∈ ts, t ∉ keys) → ts.Nodup →
      (ts.foldl (fun acc title =>
        (acc.1 ++ [title], if title ∈ acc.1 then acc.2 ++ [title] else acc.2))
        (keys, w)).2 = w by
    exact haux titles [] [] (by simp) h
  intro ts
  induction ts with
  | nil => intro keys w _ _; rfl
  | cons t rest ih =>
    intro keys w hdisj hnd
    rw [List.foldl_cons]
    simp only
    rw [if_neg (hdisj t (List.mem_cons_self t rest))]
    refine ih (keys ++ [t]) w ?_ (List.Nodup.of_cons hnd)
    intro x hx
    rw [List.mem_append]
    rintro (h1 | h1)
    · exact hdisj x (List.mem_cons_of_mem _ hx) h1
    · have hxt : x = t := by simpa using h1
      subst hxt
      exact (List.nodup_cons.mp hnd).1 hx

/-- C5 amended: at build time, when two distinct titles map to the same slug
id, NO warning is emitted — the duplicate check tests the *title* key, and
the titles of a parsed JSON object are distinct, so it never fires — while
the later title's entry does silently overwrite the earlier one in the
id-keyed quest map (last-write-wins). -/
theorem duplicateId_silent_last_write_wins (input : List (String × RawQuest))
    (hnodup : (input.map Prod.fst).Nodup) :
    duplicateWarnings (input.map Prod.fst) = [] ∧
    ∀ id, (preprocess input).find? (fun q => q.id == id) =
      (input.reverse.find? (fun pr => generateId pr.1 == id)).map
        (mkQuest (input.map Prod.fst)) :=
  ⟨duplicateWarnings_nil_of_nodup _ hnodup,
    fun id => preprocess_find?_eq_last input id⟩

/-- Witness for the amended C5 on the colliding input. -/
theorem duplicateId_silent_last_write_wins_witness :
    (collidingInput.map Prod.fst).Nodup ∧
    (duplicateWarnings (collidingInput.map Prod.fst) = [] ∧
      ∀ id, (preprocess collidingInput).find? (fun q => q.id == id) =
        (collidingInput.reverse.find? (fun pr => generateId pr.1 == id)).map
          (mkQuest (collidingInput.map Prod.fst))) :=
  ⟨by decide, duplicateId_silent_last_write_wins collidingInput (by decide)⟩
